import Mathlib

/-!
Shallow embedding of `cicd/generate-tox-ini.py`: the version-compatibility
resolver and test-matrix generator.  Python exceptions are modelled with
`Except PyErr`; CPython's machine-level behaviours (set iteration order,
`random.choice`) are modelled as explicit parameters.  All definitions are
structural so that closed terms reduce inside the kernel.
-/

namespace ToxGen

/-- Kinds of Python exceptions the embedded code can raise. -/
inductive PyErr
  | valueError          -- int() on a non-numeric string
  | indexError          -- `re.findall(...)[0]` on an empty match list
  | syntaxError         -- eval() of a string that is not valid Python syntax
  | typeError           -- eval() applying `<<`/`>>` to tuples
  | calledProcessError  -- re-raised `subprocess.CalledProcessError`
deriving DecidableEq, Repr

/-- ASCII whitespace, the characters Python's `str.strip`/`\s` treat as space
(restricted to ASCII; the version strings handled here are ASCII). -/
def isPySpace (c : Char) : Bool :=
  c = ' ' || c = '\t' || c = '\n' || c = '\x0d' || c = '\x0b' || c = '\x0c'

/-- Characters matched by the operator class `[<>=!]` of the constraint regex. -/
def isOperChar (c : Char) : Bool :=
  c = '<' || c = '>' || c = '=' || c = '!'

/-- Python's `str.split(sep)` for a one-character separator `sep`
(`"".split(',') = ['']`, `"a,,b".split(',') = ['a','','b']`). -/
def splitOnCharFn (sep : Char) : List Char → List (List Char)
  | [] => [[]]
  | c :: cs =>
    if c = sep then [] :: splitOnCharFn sep cs
    else
      match splitOnCharFn sep cs with
      | [] => [[c]]
      | a :: as => (c :: a) :: as

/-- Python's `str.split('::')` (left-to-right, non-overlapping), written with
explicit fuel so that it is structurally recursive; the fuel is instantiated
with the length of the string, which always suffices. -/
def splitOnColons : Nat → List Char → List (List Char)
  | _, [] => [[]]
  | 0, s => [s]
  | fuel + 1, ':' :: ':' :: rest => [] :: splitOnColons fuel rest
  | fuel + 1, c :: cs =>
    match splitOnColons fuel cs with
    | [] => [[c]]
    | a :: as => (c :: a) :: as

/-- The maximal runs of ASCII digits in a character list: `re.findall(r'(\d+)', s)`. -/
def digitRuns : List Char → List (List Char)
  | [] => []
  | c :: cs =>
    if c.isDigit then
      match cs with
      | [] => [[c]]
      | d :: _ =>
        if d.isDigit then
          match digitRuns cs with
          | [] => [[c]]
          | r :: rs => (c :: r) :: rs
        else [c] :: digitRuns cs
    else digitRuns cs

/-- Numeric value of a list of digit characters. -/
def digitsToNat (ds : List Char) : Nat :=
  ds.foldl (fun acc c => acc * 10 + (c.toNat - 48)) 0

/-- Strip ASCII whitespace from both ends of a character list (`str.strip()`). -/
def stripChars (cs : List Char) : List Char :=
  ((cs.dropWhile isPySpace).reverse.dropWhile isPySpace).reverse

/-- Python's `int(s)`: surrounding whitespace stripped, one optional sign,
then at least one digit (ASCII digits; underscores between digits and
non-ASCII digits, which never occur in version strings, are not modelled).
A non-numeric string raises `ValueError`. -/
def pyInt (cs : List Char) : Except PyErr Int :=
  match stripChars cs with
  | '-' :: ds =>
    if ds ≠ [] ∧ ds.all Char.isDigit then .ok (-(digitsToNat ds : Int))
    else .error .valueError
  | '+' :: ds =>
    if ds ≠ [] ∧ ds.all Char.isDigit then .ok (digitsToNat ds : Int)
    else .error .valueError
  | ds =>
    if ds ≠ [] ∧ ds.all Char.isDigit then .ok (digitsToNat ds : Int)
    else .error .valueError

/-- Python's `<` on tuples of comparable elements: lexicographic, with a
proper prefix comparing less than the longer tuple. -/
def tupLt {α : Type} [LT α] [DecidableEq α] [(a b : α) → Decidable (a < b)] :
    List α → List α → Bool
  | [], [] => false
  | [], _ :: _ => true
  | _ :: _, [] => false
  | a :: as, b :: bs => decide (a < b) || (decide (a = b) && tupLt as bs)

/-- Python's `<` on strings: lexicographic comparison of code points. -/
def charsLt : List Char → List Char → Bool
  | [], [] => false
  | [], _ :: _ => true
  | _ :: _, [] => false
  | a :: as, b :: bs =>
    decide (a.toNat < b.toNat) || (decide (a.toNat = b.toNat) && charsLt as bs)

/-- Python's `<=` on strings (total order, so `a <= b` iff `not (b < a)`). -/
def pyStrLeB (a b : String) : Bool := !(charsLt b.data a.data)

/-- The propositional form of `pyStrLeB`, used as the sorting relation. -/
def strLe (a b : String) : Prop := pyStrLeB a b = true

instance : DecidableRel strLe := fun a b =>
  inferInstanceAs (Decidable (pyStrLeB a b = true))

/-- `version_key` of `generate-tox-ini.py`: truncate at the first `'a'`
(`val.split('a')[0]`), append `".0.0"`, collect the digit runs and keep the
first three as a tuple.  Total: every string yields a value. -/
def version_key (val : String) : List Nat :=
  let pre := val.data.takeWhile (fun c => c ≠ 'a')
  ((digitRuns (pre ++ ['.', '0', '.', '0'])).map digitsToNat).take 3

/-- Whether `re.search(r'\.?\*$', val)` matches, i.e. whether `val` ends in `'*'`. -/
def endsWithStar (cs : List Char) : Bool :=
  match cs.reverse with
  | '*' :: _ => true
  | _ => false

/-- `re.sub(r'\.?\*$', '', val)`: drop a trailing `'*'` together with a dot
immediately before it. -/
def dropWildcard (cs : List Char) : List Char :=
  match cs.reverse with
  | '*' :: '.' :: rest => rest.reverse
  | '*' :: rest => rest.reverse
  | _ => cs

/-- `next_val[-1] += 1` on the parsed components. -/
def bumpLast : List Int → List Int
  | [] => []
  | [x] => [x + 1]
  | x :: rest => x :: bumpLast rest

/-- `'.'.join(...)`. -/
def joinDot : List String → String
  | [] => ""
  | [s] => s
  | s :: rest => s ++ "." ++ joinDot rest

/-- One iteration of `expand_wildcards`: a value ending in `*` becomes
`f">={val},<={bumped}a0"`, where each dot-component is parsed with `int()`
(which can raise `ValueError`); other values pass through unchanged. -/
def expand_one (val : String) : Except PyErr String :=
  if endsWithStar val.data then do
    let core := dropWildcard val.data
    let parts ← (splitOnCharFn '.' core).mapM pyInt
    .ok (">=" ++ String.mk core ++ ",<=" ++ joinDot ((bumpLast parts).map toString) ++ "a0")
  else .ok val

/-- `expand_wildcards` of `generate-tox-ini.py`. -/
def expand_wildcards (vals : List String) : Except PyErr (List String) :=
  vals.mapM expand_one

/-- The match of `re.findall(r'^([<>=!]*)(\S+)$', op)[0]`: fails (IndexError)
when, after discounting a single trailing newline (which `$` permits), the
string is empty or contains whitespace; otherwise the operator group is the
maximal prefix of `[<>=!]` characters that still leaves the version group
non-empty. -/
def stripTrailingNl (op0 : List Char) : List Char :=
  match op0.reverse with
  | '\n' :: rest => rest.reverse
  | _ => op0

/-- See the description above: the regex match of the operator/version
subclause pattern. -/
def reMatchOp (op0 : List Char) : Except PyErr (List Char × List Char) :=
  let op := stripTrailingNl op0
  if op.isEmpty || op.any isPySpace then .error .indexError
  else
    let p := op.takeWhile isOperChar
    let rest := op.drop p.length
    if rest.isEmpty then .ok (op.dropLast, op.drop (op.length - 1))
    else .ok (p, rest)

/-- The comparison operators that can reach `eval`.  The two shift operators
are syntactically valid between tuples but raise `TypeError` when evaluated;
every other string over `[<>=!]` is a `SyntaxError`. -/
inductive CmpOp
  | lt | le | gt | ge | eq | ne | shl | shr
deriving DecidableEq

/-- Compilation of an operator string by `eval` (after `check_version` has
replaced `'='` by `'=='` and `''` by `'>='`). -/
def compileOper : List Char → Except PyErr CmpOp
  | ['<'] => .ok .lt
  | ['<', '='] => .ok .le
  | ['>'] => .ok .gt
  | ['>', '='] => .ok .ge
  | ['=', '='] => .ok .eq
  | ['!', '='] => .ok .ne
  | ['<', '<'] => .ok .shl
  | ['>', '>'] => .ok .shr
  | _ => .error .syntaxError

/-- Parse one pipe-separated subclause: regex match, then the operator
defaulting of `check_version` (`'=' -> '=='`, `'' -> '>='`), and
`version_key` of the version group (computed while building the expression
string, hence eager). -/
def parseSub (sub : List Char) : Except PyErr (List Char × List Nat) := do
  let ov ← reMatchOp sub
  let oper := if ov.1 = ['='] then ['=', '='] else if ov.1 = [] then ['>', '='] else ov.1
  .ok (oper, version_key (String.mk ov.2))

/-- Building the expression strings for one spec: every comma clause and
pipe subclause is processed eagerly, so a failing regex match anywhere in
the spec raises before anything is evaluated. -/
def parseSpecRaw (spec : String) : Except PyErr (List (List (List Char × List Nat))) :=
  (splitOnCharFn ',' spec.data).mapM (fun ap => (splitOnCharFn '|' ap).mapM parseSub)

/-- `eval`'s compilation of the whole joined expression: a syntactically
invalid operator anywhere in the spec raises before evaluation starts. -/
def compileSpec (raw : List (List (List Char × List Nat))) :
    Except PyErr (List (List (CmpOp × List Nat))) :=
  raw.mapM (fun c => c.mapM (fun p => do .ok ((← compileOper p.1), p.2)))

/-- Evaluate one tuple comparison (`shl`/`shr` raise `TypeError` when reached). -/
def evalCmp (op : CmpOp) (a b : List Nat) : Except PyErr Bool :=
  match op with
  | .lt => .ok (tupLt a b)
  | .le => .ok (!(tupLt b a))
  | .gt => .ok (tupLt b a)
  | .ge => .ok (!(tupLt a b))
  | .eq => .ok (decide (a = b))
  | .ne => .ok (!(decide (a = b)))
  | .shl => .error .typeError
  | .shr => .error .typeError

/-- Python's short-circuiting `or` across the pipe subclauses of one clause. -/
def evalOr (pv : List Nat) : List (CmpOp × List Nat) → Except PyErr Bool
  | [] => .ok false
  | (op, w) :: rest => do
    let b ← evalCmp op pv w
    if b then .ok true else evalOr pv rest

/-- Python's short-circuiting `and` across the comma clauses of one spec. -/
def evalAnd (pv : List Nat) : List (List (CmpOp × List Nat)) → Except PyErr Bool
  | [] => .ok true
  | c :: rest => do
    let b ← evalOr pv c
    if b then evalAnd pv rest else .ok false

/-- Full processing of one spec string against a normalized version:
eager regex parse, eager syntax check, then lazy boolean evaluation. -/
def evalSpecFull (pv : List Nat) (spec : String) : Except PyErr Bool := do
  let raw ← parseSpecRaw spec
  let cl ← compileSpec raw
  evalAnd pv cl

/-- The spec loop of `check_version`: specs are OR'd with short-circuiting,
returning `True` at the first satisfied spec and `False` when none is. -/
def checkLoop (pv : List Nat) : List String → Except PyErr Bool
  | [] => .ok false
  | s :: rest => do
    let b ← evalSpecFull pv s
    if b then .ok true else checkLoop pv rest

/-- `check_version` of `generate-tox-ini.py`. -/
def check_version (pkg_ver : String) (specs : List String) : Except PyErr Bool := do
  let pv := version_key pkg_ver
  let expanded ← expand_wildcards specs
  checkLoop pv expanded

/-- One version record returned by the index for a package: a version string
and the raw dependency-constraint strings. -/
structure PkgRecord where
  version : String
  depends : List String
deriving DecidableEq

/-- Outcome of running `conda search --json --platform <platform> <pkg>`:
either the parsed JSON object mapping unqualified package names to their
version records, or a `CalledProcessError` whose output parses to a JSON
error object (modelled as its string-valued fields, which is all
`conda_search` inspects). -/
inductive QueryOutcome
  | ok (out : List (String × List PkgRecord))
  | err (body : List (String × String))

/-- The external package index: platform and qualified package name to outcome. -/
def Query : Type := String → String → QueryOutcome

/-- `pkg.split('::')[-1]`: the unqualified package name. -/
def unqualified (pkg : String) : String :=
  String.mk ((splitOnColons pkg.data.length pkg.data).getLastD [])

/-- `conda_search` of `generate-tox-ini.py`: on success, look up the
unqualified name (missing key yields the empty record list); on a query
error, a non-empty body whose `exception_name` is `PackagesNotFoundError`
is treated as zero results, anything else re-raises. -/
def conda_search (q : Query) (platform pkg : String) : Except PyErr (List PkgRecord) :=
  match q platform pkg with
  | .ok out => .ok ((out.lookup (unqualified pkg)).getD [])
  | .err body =>
    if body ≠ [] ∧ (body.lookup "exception_name").getD "" = "PackagesNotFoundError" then
      .ok []
    else .error .calledProcessError

/-- The floor comparison key `tuple(int(x) for x in ver.split('.'))`
(note: raw `int()` per dot component, not `version_key`; it raises
`ValueError` on any non-numeric component). -/
def floorKey (ver : String) : Except PyErr (List Int) :=
  (splitOnCharFn '.' ver.data).mapM pyInt

/-- Accumulating the candidate base versions: keep versions whose floor key
is not `< (3, 4, 3)`; the accumulator has set semantics (duplicates collapse). -/
def buildCandsGo : List PkgRecord → List String → Except PyErr (List String)
  | [], acc => .ok acc
  | item :: rest, acc => do
    let k ← floorKey item.version
    if tupLt k [(3 : Int), 4, 3] then buildCandsGo rest acc
    else buildCandsGo rest (if item.version ∈ acc then acc else acc ++ [item.version])

/-- Candidate versions of the base package above the `3.4.3` floor. -/
def buildCands (items : List PkgRecord) : Except PyErr (List String) :=
  buildCandsGo items []

/-- The dependency constraint a companion record places on `{r_base}-base`:
the first `depends` entry with that prefix, the bare `mro-base` sentinel
rewritten to `mro-base ==3.4.3`, and the constraint taken as the last
space-separated field.  `none` when the record does not depend on the base. -/
def depSpec (r_base : String) (item : PkgRecord) : Option String :=
  match item.depends.filter (fun x => (r_base ++ "-base").data.isPrefixOf x.data) with
  | [] => none
  | rver :: _ =>
    let rver := if rver = "mro-base" then "mro-base ==3.4.3" else rver
    some (String.mk ((splitOnCharFn ' ' rver.data).getLastD []))

/-- The constraint-spec list one companion package contributes. -/
def pkgVers (r_base : String) (items : List PkgRecord) : List String :=
  items.filterMap (depSpec r_base)

/-- The removal loop over a materialisation of the candidate set: keep the
versions whose `check_version` succeeds and is true; a raising
`check_version` aborts. -/
def filterCands (specs : List String) : List String → Except PyErr (List String)
  | [] => .ok []
  | v :: vs => do
    let b ← check_version v specs
    let r ← filterCands specs vs
    .ok (if b then v :: r else r)

/-- The boolean outcome a successful `check_version` call yields (false for
an exceptional one); `filterCands` keeps exactly the versions on which this
is true whenever it completes. -/
def checkTrue (specs : List String) (v : String) : Bool :=
  match check_version v specs with
  | .ok b => b
  | .error _ => false

/-- The fixed companion packages. -/
def companions : List String := ["r::r-httr", "r::r-jsonlite", "r::r-testthat"]

/-- Per-companion filtering of the candidate set.  `shuffle` models the
arbitrary iteration order of the backing Python `set` at each
`list(r_base_vers)` materialisation. -/
def companionLoop (shuffle : List String → List String) (q : Query)
    (platform r_base : String) : List String → List String → Except PyErr (List String)
  | [], cands => .ok cands
  | pkg :: rest, cands => do
    let out ← conda_search q platform pkg
    let cands' ← filterCands (pkgVers r_base out) (shuffle cands)
    companionLoop shuffle q platform r_base rest cands'

/-- `get_supported_versions` of `generate-tox-ini.py` (`resolve`):
query `{r_base}-base`, return empty when the query reports nothing, filter
by the `3.4.3` floor, intersect with each companion's constraints and
return the surviving versions sorted. -/
def get_supported_versions (shuffle : List String → List String) (q : Query)
    (platform r_base : String) : Except PyErr (List String) := do
  let out ← conda_search q platform ("r::" ++ r_base ++ "-base")
  if out.isEmpty then .ok []
  else do
    let cands ← buildCands out
    let cands ← companionLoop shuffle q platform r_base companions cands
    .ok (List.insertionSort strLe (shuffle cands))

/-- The subset sampler of `main`: first element, last element, and — when
more than two elements exist — one element of the open interior chosen by
`random.choice`, modelled by the arbitrary index `pick` reduced modulo the
interior's length. -/
def sample (vers : List String) (pick : Nat) : Finset String :=
  if vers.isEmpty then ∅
  else
    let base : Finset String := insert (vers.getLastD "") {vers.headD ""}
    if 2 < vers.length then
      let interior := (vers.drop 1).dropLast
      insert (interior.getD (pick % interior.length) "") base
    else base

/-- The fixed header of the generated configuration block, including the
literal no-op `empty` environment. -/
def outHeader : List String :=
  ["", "#", "# BEGIN GENERATED ENVIRONMENTS", "#", "",
   "[testenv:empty]", "commands =", "deps =", "conda_deps =", ""]

/-- `ver.replace('.', '')`. -/
def stripDots (v : String) : String := String.mk (v.data.filter (fun c => c ≠ '.'))

/-- The generated environment name `{base}{ver-without-dots}-{pkg}-cicd`. -/
def envName (base ver pkg : String) : String :=
  base ++ stripDots ver ++ "-" ++ pkg ++ "-cicd"

/-- Key comparison for `sorted(subset.items())` (the keys are distinct, so
only the first components are compared). -/
def pairLe (p q : String × List String) : Prop := pyStrLeB p.1 q.1 = true

instance : DecidableRel pairLe := fun p q =>
  inferInstanceAs (Decidable (pyStrLeB p.1 q.1 = true))

/-- The configuration lines generated for one base family and one version. -/
def verBlock (pkg base ver : String) : List String :=
  ["# R " ++ ver,
   "[testenv:" ++ envName base ver pkg ++ "]",
   "commands = \x7b[testenv:" ++ pkg ++ "]commands\x7d",
   "conda_deps =",
   "    " ++ base ++ "-base==" ++ ver,
   "    \x7b[testenv]conda_deps\x7d",
   ""]

/-- The family loop of `main`: per family a comment header, then per sorted
version its environment block; the environment names accumulate in the same
order into the `envlist`. -/
def genBodyGo (pkg : String) : List (String × List String) → List String × List String
  | [] => ([], [])
  | (base, vers) :: rest =>
    let sorted := List.insertionSort strLe vers
    let (envRest, outRest) := genBodyGo pkg rest
    (sorted.map (fun ver => envName base ver pkg) ++ envRest,
     (["#", "# " ++ base ++ "-base", "#", ""] ++
       (sorted.map (verBlock pkg base)).flatten) ++ outRest)

/-- Environment names and generated body lines for the sampled subset
(families sorted by name, versions sorted within a family). -/
def genBody (pkg : String) (subset : List (String × List String)) :
    List String × List String :=
  genBodyGo pkg (List.insertionSort pairLe subset)

/-- `line.startswith(prefix)`. -/
def pyStartsWith (pre s : String) : Bool := pre.data.isPrefixOf s.data

/-- The inner skip loop of the emitter: consume lines while they start with
a space character, returning the final value of the loop variable `line`
(the breaking line, or the last consumed line — or the initial value — when
the file ends first) together with the unread remainder. -/
def skipCont (cur : String) : List String → String × List String
  | [] => (cur, [])
  | l :: ls => if pyStartsWith " " l then skipCont l ls else (l, ls)

/-- The template copy loop, fuelled for structural recursion (the fuel is
instantiated with the number of lines, which always suffices): a line
starting with `envlist` is replaced by `block`, its space-indented
continuation run is skipped, and the final value of the loop variable is
written afterwards. -/
def copyLoopFuel (block : List String) : Nat → List String → List String
  | _, [] => []
  | 0, _ => []
  | fuel + 1, line :: rest =>
    if pyStartsWith "envlist" line then
      let s := skipCont line rest
      block ++ s.1 :: copyLoopFuel block fuel s.2
    else line :: copyLoopFuel block fuel rest

/-- The template copy loop of the emitter. -/
def copyLoop (block : List String) (lines : List String) : List String :=
  copyLoopFuel block lines.length lines

/-- The generated `envlist` block: the header line, one indented line per
environment name, and the `empty` sentinel. -/
def envlistBlock (envlist : List String) : List String :=
  "envlist =\n" :: envlist.map (fun i => "    " ++ i ++ "\n") ++ ["    empty\n"]

/-- The full emitted file as a list of lines: the copied template (with the
`envlist` replacement) followed by the generated body, each body line
written with a trailing newline. -/
def writeToxOutput (envlist outBody : List String) (templateLines : List String) :
    List String :=
  copyLoop (envlistBlock envlist) templateLines ++ outBody.map (fun s => s ++ "\n")

/-- End-to-end emission for a sampled subset. -/
def emitForSubset (pkg : String) (subset : List (String × List String))
    (templateLines : List String) : List String :=
  let eb := genBody pkg subset
  writeToxOutput eb.1 (outHeader ++ eb.2) templateLines

/-- `str.strip()`. -/
def pyStrip (s : String) : String := String.mk (stripChars s.data)

/-- The entries of the `envlist` block of an emitted file, read the way an
ini parser does: the whitespace-indented lines following the first line
that starts with `envlist`, stripped. -/
def iniEnvlistEntries (lines : List String) : List String :=
  match lines.dropWhile (fun l => !(pyStartsWith "envlist" l)) with
  | [] => []
  | _ :: rest =>
    (rest.takeWhile (fun l =>
      match l.data with
      | c :: _ => c = ' ' || c = '\t'
      | [] => false)).map pyStrip

/-- An index whose base-package query returns a version string with a
non-numeric dot component. -/
def badIdx : Query := fun _ pkg =>
  if pkg = "r::r-base" then .ok [("r-base", [⟨"3.4.3a", []⟩])] else .ok []

/-- An index that answers every query with an empty record set. -/
def qEmpty : Query := fun _ _ => .ok []

/-- A small well-formed index: three base versions, companions constraining
the base to `>=3.4.3`. -/
def qGood : Query := fun _ pkg =>
  if pkg = "r::r-base" then
    .ok [("r-base", [⟨"3.5.0", []⟩, ⟨"3.4.1", []⟩, ⟨"3.4.3", []⟩])]
  else .ok [(unqualified pkg, [⟨"1.0", ["r-base >=3.4.3"]⟩])]

/-- An index whose every query fails with the not-found error body. -/
def qNotFound : Query := fun _ _ => .err [("exception_name", "PackagesNotFoundError")]

/-- An index whose every query fails with some other error body. -/
def qFatal : Query := fun _ _ => .err [("exception_name", "CondaHTTPError")]

/-- The template of spec property 7: an `envlist` line whose continuation
run extends to the end of the file. -/
def template6 : List String := ["envlist = foo\n", "    bar\n"]

/-- The file emitted for that template and the sampled matrix `{r: {"3.5.0"}}`. -/
def emitted6 : List String := emitForSubset "conda" [("mro", []), ("r", ["3.5.0"])] template6

/-- C1: evaluation of the code at the claimed inputs.  `expand_wildcards`
turns `"1.2.*"` into `">=1.2,<=1.3a0"`, and because `version_key` truncates
at the `'a'` marker, the upper bound is the inclusive tuple `(1,3,0)`; the
boundary version `"1.3.0"` therefore satisfies the expanded constraint,
although the claim (and the evident intent of the `a0` pre-release marker)
requires it not to. -/
theorem wildcard_range_code_eval :
    expand_wildcards ["1.2.*"] = .ok [">=1.2,<=1.3a0"] ∧
    check_version "1.2.0" ["1.2.*"] = .ok true ∧
    check_version "1.2.9" ["1.2.*"] = .ok true ∧
    check_version "1.1.9" ["1.2.*"] = .ok false ∧
    check_version "1.3.0" ["1.2.*"] = .ok true :=
  ⟨rfl, rfl, rfl, rfl, rfl⟩

/-- C2 counterexample: for the digit-free input `"x"`, `version_key` returns
the pair `(0,0)` — a 2-tuple, not a 3-tuple, and not the zero version
`(0,0,0)` the claim requires. -/
theorem normalize_not_three_tuple :
    (version_key "x").length ≠ 3 ∧ version_key "x" ≠ [0, 0, 0] ∧ version_key "x" = [0, 0] := by
  decide

/-- C4 counterexample: an index whose base-package query yields the version
string `"3.4.3a"` makes `resolve` raise `ValueError` at the floor
comparison (`int('3a')`), so `resolve` does not complete without a
version-parse failure for every index content. -/
theorem resolve_parse_failure :
    get_supported_versions id badIdx "linux-64" "r" = .error .valueError := rfl

/-- C5 counterexample: a continuation line indented with a tab is not
treated as part of the `envlist` block (the code tests `startswith(' ')`
only), so an original whitespace-indented continuation line survives into
the output, contradicting the claim that every line starting with space or
tab is replaced. -/
theorem emitter_tab_continuation_kept :
    writeToxOutput ["r350-conda-cicd"] [] ["envlist = foo\n", "\tbar\n", "x\n"] =
      ["envlist =\n", "    r350-conda-cicd\n", "    empty\n", "\tbar\n", "x\n"] ∧
    "\tbar\n" ∈ writeToxOutput ["r350-conda-cicd"] [] ["envlist = foo\n", "\tbar\n", "x\n"] := by
  exact ⟨rfl, by decide⟩

/-- C6: evaluation of the emitter at the spec's own template
`envlist = foo\n    bar\n` with the sampled matrix `{r: {"3.5.0"}}`.  The
template ends inside the continuation run, so the copy loop's variable
still holds `"    bar\n"` when the inner skip loop exhausts the file, and
that line is written directly after the generated block: the emitted
`envlist` block contains `bar` in addition to `r350-conda-cicd` and
`empty`.  The generated `[testenv:r350-conda-cicd]` section pinning
`r-base==3.5.0` and the `[testenv:empty]` no-op section are as claimed. -/
theorem emission_end_to_end_eval :
    iniEnvlistEntries emitted6 = ["r350-conda-cicd", "empty", "bar"] ∧
    emitted6 =
      ["envlist =\n", "    r350-conda-cicd\n", "    empty\n", "    bar\n",
       "\n", "#\n", "# BEGIN GENERATED ENVIRONMENTS\n", "#\n", "\n",
       "[testenv:empty]\n", "commands =\n", "deps =\n", "conda_deps =\n", "\n",
       "#\n", "# mro-base\n", "#\n", "\n",
       "#\n", "# r-base\n", "#\n", "\n",
       "# R 3.5.0\n", "[testenv:r350-conda-cicd]\n",
       "commands = \x7b[testenv:conda]commands\x7d\n", "conda_deps =\n",
       "    r-base==3.5.0\n", "    \x7b[testenv]conda_deps\x7d\n", "\n"] :=
  ⟨rfl, rfl⟩

/-- C10 counterexample: the spec list `[">=0", ""]` contains a spec (the
empty string) whose comma/pipe split yields a clause with no non-whitespace
token, yet `check_version` returns `True` for version `"1.0"` — the loop
short-circuits on the first satisfied spec before the malformed one is
reached, so the claim's "any spec list containing such a spec raises" is
false. -/
theorem check_version_bad_spec_shortcircuit :
    check_version "1.0" [">=0", ""] = .ok true ∧
    ∃ ap ∈ splitOnCharFn ',' "".data, ∃ sub ∈ splitOnCharFn '|' ap, sub.all isPySpace := by
  exact ⟨rfl, by decide⟩

/-- Unfolding step: a non-digit head contributes nothing to the digit runs. -/
theorem digitRuns_cons_not_digit (c : Char) (hc : c.isDigit = false) :
    ∀ m, digitRuns (c :: m) = digitRuns m := by
  intro m
  cases m with
  | nil => simp [digitRuns, hc]
  | cons d m' => simp [digitRuns, hc]

/-- Unfolding step: a digit followed by a non-digit closes a singleton run. -/
theorem digitRuns_cons_digit_not (c d : Char) (hc : c.isDigit = true)
    (hd : d.isDigit = false) (m : List Char) :
    digitRuns (c :: d :: m) = [c] :: digitRuns (d :: m) := by
  simp [digitRuns, hc, hd]

/-- Unfolding step: two adjacent digits extend the leading run. -/
theorem digitRuns_cons_cons_digit (c d : Char) (hc : c.isDigit = true)
    (hd : d.isDigit = true) (m r : List Char) (rs : List (List Char))
    (h : digitRuns (d :: m) = (d :: r) :: rs) :
    digitRuns (c :: d :: m) = (c :: d :: r) :: rs := by
  rw [digitRuns, h]
  simp [hc, hd]

/-- A digit-headed list contributes a digit run starting with that digit. -/
theorem digitRuns_cons_digit : ∀ (l : List Char) (x : Char), x.isDigit = true →
    ∃ r rs, digitRuns (x :: l) = (x :: r) :: rs := by
  intro l
  induction l with
  | nil => intro x hx; exact ⟨[], [], by simp [digitRuns, hx]⟩
  | cons y l' ih =>
    intro x hx
    cases hy : y.isDigit with
    | true =>
      obtain ⟨r, rs, hr⟩ := ih y hy
      exact ⟨y :: r, rs, digitRuns_cons_cons_digit x y hx hy l' r rs hr⟩
    | false =>
      exact ⟨[], digitRuns (y :: l'), digitRuns_cons_digit_not x y hx hy l'⟩

/-- Digit runs split at a non-digit separator. -/
theorem digitRuns_append_sep (c : Char) (hc : c.isDigit = false) :
    ∀ (l m : List Char), digitRuns (l ++ c :: m) = digitRuns l ++ digitRuns m := by
  intro l
  induction l with
  | nil => intro m; rw [List.nil_append, digitRuns_cons_not_digit c hc]; rfl
  | cons x l' ih =>
    intro m
    cases hx : x.isDigit with
    | false =>
      have ihm := ih m
      simp only [List.cons_append] at ihm ⊢
      rw [digitRuns_cons_not_digit x hx, digitRuns_cons_not_digit x hx, ihm]
    | true =>
      cases l' with
      | nil =>
        simp only [List.cons_append, List.nil_append]
        rw [digitRuns_cons_digit_not x c hx hc, digitRuns_cons_not_digit c hc]
        simp [digitRuns, hx]
      | cons y l'' =>
        have ihm := ih m
        simp only [List.cons_append] at ihm ⊢
        cases hy : y.isDigit with
        | true =>
          obtain ⟨r, rs, hr⟩ := digitRuns_cons_digit l'' y hy
          rw [hr] at ihm
          simp only [List.cons_append] at ihm
          rw [digitRuns_cons_cons_digit x y hx hy _ _ _ ihm,
              digitRuns_cons_cons_digit x y hx hy _ _ _ hr]
          simp
        | false =>
          rw [digitRuns_cons_digit_not x y hx hy, digitRuns_cons_digit_not x y hx hy, ihm]
          simp

/-- Digit runs of an append whose left part has no digits. -/
theorem digitRuns_no_digit : ∀ (l : List Char), (∀ c ∈ l, c.isDigit = false) →
    ∀ m, digitRuns (l ++ m) = digitRuns m := by
  intro l
  induction l with
  | nil => intro _ m; rfl
  | cons x l' ih =>
    intro h m
    have hx := h x (List.mem_cons_self x l')
    rw [List.cons_append, digitRuns_cons_not_digit x hx,
        ih (fun c hc => h c (List.mem_cons_of_mem _ hc)) m]

/-- A list containing a digit has at least one digit run. -/
theorem digitRuns_ne_nil : ∀ (l : List Char), (∃ c ∈ l, c.isDigit = true) →
    digitRuns l ≠ [] := by
  intro l
  induction l with
  | nil => rintro ⟨c, hc, _⟩; cases hc
  | cons x xs ih =>
    rintro ⟨c, hc, hd⟩
    cases hx : x.isDigit with
    | true =>
      obtain ⟨r, rs, hr⟩ := digitRuns_cons_digit xs x hx
      rw [hr]
      exact List.cons_ne_nil _ _
    | false =>
      rw [digitRuns_cons_not_digit x hx]
      rcases List.mem_cons.mp hc with rfl | hc'
      · rw [hx] at hd; cases hd
      · exact ih ⟨c, hc', hd⟩

/-- C2 (amended): `version_key` is total and returns a tuple of two or
three non-negative integers — exactly three when a digit occurs before the
first `'a'`, and the pair `(0,0)` (not the claimed `(0,0,0)`) when no
digit occurs before the first `'a'`, in particular for any input
containing no digits at all; the claimed concrete values hold. -/
theorem normalize_total_shape :
    version_key "2.3.1" = [2, 3, 1] ∧
    version_key "3.4a0" = [3, 4, 0] ∧
    version_key "1.0" = [1, 0, 0] ∧
    (∀ v : String, (version_key v).length = 2 ∨ (version_key v).length = 3) ∧
    (∀ v : String, (∃ c ∈ v.data.takeWhile (fun c => c ≠ 'a'), c.isDigit = true) →
      (version_key v).length = 3) ∧
    (∀ v : String, (∀ c ∈ v.data.takeWhile (fun c => c ≠ 'a'), c.isDigit = false) →
      version_key v = [0, 0]) ∧
    (∀ v : String, (∀ c ∈ v.data, c.isDigit = false) → version_key v = [0, 0]) := by
  have hfree : ∀ v : String,
      (∀ c ∈ v.data.takeWhile (fun c => c ≠ 'a'), c.isDigit = false) →
      version_key v = [0, 0] := by
    intro v h
    simp only [version_key]
    rw [digitRuns_no_digit _ h _]
    rfl
  refine ⟨rfl, rfl, rfl, ?_, ?_, hfree, ?_⟩
  · intro v
    simp only [version_key]
    rw [show (['.', '0', '.', '0'] : List Char) = '.' :: ['0', '.', '0'] from rfl,
        digitRuns_append_sep '.' (by decide)]
    rw [show digitRuns ['0', '.', '0'] = [['0'], ['0']] from rfl]
    simp only [List.length_take, List.length_map, List.length_append, List.length_cons,
      List.length_nil]
    omega
  · intro v hd
    simp only [version_key]
    rw [show (['.', '0', '.', '0'] : List Char) = '.' :: ['0', '.', '0'] from rfl,
        digitRuns_append_sep '.' (by decide)]
    rw [show digitRuns ['0', '.', '0'] = [['0'], ['0']] from rfl]
    have hne := digitRuns_ne_nil _ hd
    have hpos : 0 < (digitRuns (v.data.takeWhile (fun c => c ≠ 'a'))).length :=
      List.length_pos.mpr hne
    simp only [List.length_take, List.length_map, List.length_append, List.length_cons,
      List.length_nil]
    omega
  · intro v h
    exact hfree v (fun c hc => h c ((List.takeWhile_sublist _).subset hc))

/-- C2 witness: the amended arity characterization applied at `"7a1"` (a
digit before the `'a'`: three components) and at `"xa1"` (no digit before
the `'a'`, though the string contains digits: the pair `(0,0)`), and the
fully digit-free clause at `"xyz"`. -/
theorem normalize_total_shape_witness :
    (version_key "7a1").length = 3 ∧ version_key "xa1" = [0, 0] ∧
    version_key "xyz" = [0, 0] :=
  ⟨normalize_total_shape.2.2.2.2.1 "7a1" (by decide),
   normalize_total_shape.2.2.2.2.2.1 "xa1" (by decide),
   normalize_total_shape.2.2.2.2.2.2 "xyz" (by decide)⟩

/-- Reading the default-valued head as an indexed element. -/
theorem sample_headD_eq (l : List String) (h : 0 < l.length) :
    l.headD "" = l.get ⟨0, h⟩ := by
  cases l with
  | nil => simp at h
  | cons a t => rfl

/-- Reading the default-valued last element as an indexed element. -/
theorem sample_getLastD_eq (l : List String) (h : 0 < l.length) :
    l.getLastD "" = l.get ⟨l.length - 1, by omega⟩ := by
  rw [List.getLastD_eq_getLast?, List.getLast?_eq_getElem?]
  rw [List.getElem?_eq_getElem (by omega : l.length - 1 < l.length)]
  simp [List.get_eq_getElem]

/-- C7: the sampler returns nothing for an empty list, everything (as a
set) for a list of at most two elements, and for a duplicate-free list of
three or more versions it always contains the first and the last element
and has exactly three elements, whichever interior element the random draw
picks; in particular for `["1.0","2.0","3.0","4.0"]`. -/
theorem sampler_spec :
    (∀ pick : Nat, sample [] pick = ∅) ∧
    (∀ (vers : List String) (pick : Nat), vers.length ≤ 2 →
      sample vers pick = vers.toFinset) ∧
    (∀ (vers : List String) (pick : Nat), vers.Nodup → 3 ≤ vers.length →
      vers.headD "" ∈ sample vers pick ∧ vers.getLastD "" ∈ sample vers pick ∧
      (sample vers pick).card = 3) ∧
    (∀ pick : Nat, "1.0" ∈ sample ["1.0", "2.0", "3.0", "4.0"] pick ∧
      "4.0" ∈ sample ["1.0", "2.0", "3.0", "4.0"] pick ∧
      (sample ["1.0", "2.0", "3.0", "4.0"] pick).card = 3) := by
  have main : ∀ (vers : List String) (pick : Nat), vers.Nodup → 3 ≤ vers.length →
      vers.headD "" ∈ sample vers pick ∧ vers.getLastD "" ∈ sample vers pick ∧
      (sample vers pick).card = 3 := by
    intro vers pick hnd hlen
    have h0 : 0 < vers.length := by omega
    have hne : vers ≠ [] := by intro h; subst h; simp at hlen
    have hie : vers.isEmpty = false := List.isEmpty_eq_false.mpr hne
    have h2 : 2 < vers.length := by omega
    have hIlen : ((vers.drop 1).dropLast).length = vers.length - 2 := by
      simp [List.length_dropLast, List.length_drop]
      omega
    have hIpos : 0 < ((vers.drop 1).dropLast).length := by omega
    have hklt : pick % ((vers.drop 1).dropLast).length <
        ((vers.drop 1).dropLast).length := Nat.mod_lt _ hIpos
    have hkk : pick % ((vers.drop 1).dropLast).length + 1 < vers.length := by omega
    have hs : sample vers pick =
        insert (((vers.drop 1).dropLast).getD (pick % ((vers.drop 1).dropLast).length) "")
          (insert (vers.getLastD "") {vers.headD ""}) := by
      simp [sample, hie, h2]
    have hmI : ((vers.drop 1).dropLast).getD (pick % ((vers.drop 1).dropLast).length) "" =
        vers.get ⟨pick % ((vers.drop 1).dropLast).length + 1, hkk⟩ := by
      rw [List.getD_eq_getElem _ _ hklt]
      simp only [List.getElem_dropLast, List.getElem_drop, List.get_eq_getElem]
      simp [Nat.add_comm]
    have hh := sample_headD_eq vers h0
    have hl := sample_getLastD_eq vers h0
    have d01 : vers.get ⟨0, h0⟩ ≠ vers.get ⟨vers.length - 1, by omega⟩ := by
      intro heq
      have hv : (0 : Nat) = vers.length - 1 :=
        congrArg Fin.val (hnd.get_inj_iff.mp heq)
      omega
    have dk0 : vers.get ⟨pick % ((vers.drop 1).dropLast).length + 1, hkk⟩ ≠
        vers.get ⟨0, h0⟩ := by
      intro heq
      have hv : pick % ((vers.drop 1).dropLast).length + 1 = 0 :=
        congrArg Fin.val (hnd.get_inj_iff.mp heq)
      omega
    have dkl : vers.get ⟨pick % ((vers.drop 1).dropLast).length + 1, hkk⟩ ≠
        vers.get ⟨vers.length - 1, by omega⟩ := by
      intro heq
      have hv : pick % ((vers.drop 1).dropLast).length + 1 = vers.length - 1 :=
        congrArg Fin.val (hnd.get_inj_iff.mp heq)
      omega
    refine ⟨?_, ?_, ?_⟩
    · rw [hs]
      exact Finset.mem_insert_of_mem (Finset.mem_insert_of_mem (Finset.mem_singleton_self _))
    · rw [hs]
      exact Finset.mem_insert_of_mem (Finset.mem_insert_self _ _)
    · rw [hs, hmI, hh, hl]
      have hm_notmem : vers.get ⟨pick % ((vers.drop 1).dropLast).length + 1, hkk⟩ ∉
          insert (vers.get ⟨vers.length - 1, by omega⟩)
            ({vers.get ⟨0, h0⟩} : Finset String) := by
        intro hmem
        rcases Finset.mem_insert.mp hmem with h1 | h1
        · exact dkl h1
        · exact dk0 (Finset.mem_singleton.mp h1)
      have hl_notmem : (vers.get ⟨vers.length - 1, by omega⟩) ∉
          ({vers.get ⟨0, h0⟩} : Finset String) := by
        intro hmem
        exact d01 (Finset.mem_singleton.mp hmem).symm
      rw [Finset.card_insert_of_not_mem hm_notmem,
          Finset.card_insert_of_not_mem hl_notmem, Finset.card_singleton]
  refine ⟨fun _ => rfl, ?_, main, ?_⟩
  · intro vers pick hlen
    match vers with
    | [] => rfl
    | [a] => simp [sample]
    | [a, b] =>
      apply Finset.ext
      intro x
      simp [sample]
      tauto
    | a :: b :: c :: t => simp at hlen
  · intro pick
    have h := main ["1.0", "2.0", "3.0", "4.0"] pick (by decide) (by decide)
    simpa using h

/-- C7 witness: the sampler theorem applied to the concrete four-element
sorted list of the claim with a concrete pick. -/
theorem sampler_spec_witness :
    "1.0" ∈ sample ["1.0", "2.0", "3.0", "4.0"] 5 ∧
    "4.0" ∈ sample ["1.0", "2.0", "3.0", "4.0"] 5 ∧
    (sample ["1.0", "2.0", "3.0", "4.0"] 5).card = 3 := by
  have h := sampler_spec.2.2.1 ["1.0", "2.0", "3.0", "4.0"] 5 (by decide) (by decide)
  simpa using h

/-- Reduction of a successful bind in the `Except` monad. -/
theorem except_bind_ok {α β : Type} (a : α) (f : α → Except PyErr β) :
    (Except.ok a >>= f) = f a := rfl

/-- Reduction of a failing bind in the `Except` monad. -/
theorem except_bind_error {α β : Type} (e : PyErr) (f : α → Except PyErr β) :
    ((Except.error e : Except PyErr α) >>= f) = Except.error e := rfl

/-- A spec loop that returns `False` evaluated every spec to `False`. -/
theorem checkLoop_ok_false (pv : List Nat) : ∀ (l : List String),
    checkLoop pv l = .ok false → ∀ s ∈ l, evalSpecFull pv s = .ok false := by
  intro l
  induction l with
  | nil => intro _ s hs; cases hs
  | cons a rest ih =>
    intro h s hs
    rw [checkLoop] at h
    cases he : evalSpecFull pv a with
    | error e => rw [he, except_bind_error] at h; cases h
    | ok b =>
      rw [he, except_bind_ok] at h
      cases b with
      | true => simp at h
      | false =>
        simp at h
        rcases List.mem_cons.mp hs with rfl | hs'
        · exact he
        · exact ih h s hs'

/-- A spec loop that returns `True` found a spec that evaluates to `True`. -/
theorem checkLoop_ok_true (pv : List Nat) : ∀ (l : List String),
    checkLoop pv l = .ok true → ∃ s ∈ l, evalSpecFull pv s = .ok true := by
  intro l
  induction l with
  | nil => intro h; simp [checkLoop] at h
  | cons a rest ih =>
    intro h
    rw [checkLoop] at h
    cases he : evalSpecFull pv a with
    | error e => rw [he, except_bind_error] at h; cases h
    | ok b =>
      rw [he, except_bind_ok] at h
      cases b with
      | true => exact ⟨a, List.mem_cons_self _ _, he⟩
      | false =>
        simp at h
        obtain ⟨s, hs, hst⟩ := ih h
        exact ⟨s, List.mem_cons_of_mem _ hs, hst⟩

/-- C3: `check_version` evaluates comma as AND, pipe as OR and ORs the spec
list.  The three concrete examples of the claim hold; the empty spec list
matches nothing; an empty operator behaves as `>=` and `=` as `==`; and for
every run that completes, the result is `True` exactly when some expanded
spec evaluates to `True`. -/
theorem satisfies_semantics :
    check_version "3.5.0" [">=3.4.3,<4.0.0a0"] = .ok true ∧
    check_version "3.4.2" [">=3.4.3"] = .ok false ∧
    check_version "3.5.0" ["==3.5.0|==3.6.0"] = .ok true ∧
    (∀ v : String, check_version v [] = .ok false) ∧
    (∀ v : String, check_version v ["3.4.3"] = check_version v [">=3.4.3"]) ∧
    (∀ v : String, check_version v ["=3.5.0"] = check_version v ["==3.5.0"]) ∧
    (∀ (v : String) (specs expanded : List String) (b : Bool),
      expand_wildcards specs = .ok expanded →
      check_version v specs = .ok b →
      (b = true ↔ ∃ s ∈ expanded, evalSpecFull (version_key v) s = .ok true)) := by
  refine ⟨rfl, rfl, rfl, fun v => rfl, fun v => rfl, fun v => rfl, ?_⟩
  intro v specs expanded b hexp hchk
  rw [check_version, hexp, except_bind_ok] at hchk
  constructor
  · intro hb
    subst hb
    exact checkLoop_ok_true _ _ hchk
  · rintro ⟨s, hs, htrue⟩
    cases b with
    | true => rfl
    | false =>
      have := checkLoop_ok_false _ _ hchk s hs
      rw [htrue] at this
      cases this

/-- C3 witness: the OR-across-the-list equivalence applied at a concrete
version and spec list whose hypotheses hold by computation. -/
theorem satisfies_semantics_witness :
    (true = true ↔ ∃ s ∈ ["==1.0"], evalSpecFull (version_key "1.0") s = .ok true) :=
  satisfies_semantics.2.2.2.2.2.2 "1.0" ["==1.0"] ["==1.0"] true rfl rfl

/-- A `mapM` over `Except` fails when some element fails. -/
theorem mapM_error_of_mem {α β : Type} (f : α → Except PyErr β) :
    ∀ (l : List α) (x : α), x ∈ l → (∀ r, f x ≠ .ok r) →
    ∃ e, l.mapM f = .error e := by
  intro l
  induction l with
  | nil => intro x hx; cases hx
  | cons a rest ih =>
    intro x hx hfx
    rcases List.mem_cons.mp hx with rfl | hx'
    · cases hf : f x with
      | error e =>
        exact ⟨e, by rw [List.mapM_cons, hf, except_bind_error]⟩
      | ok r => exact absurd hf (hfx r)
    · cases hf : f a with
      | error e =>
        exact ⟨e, by rw [List.mapM_cons, hf, except_bind_error]⟩
      | ok r =>
        obtain ⟨e, he⟩ := ih x hx' hfx
        exact ⟨e, by rw [List.mapM_cons, hf, except_bind_ok, he, except_bind_error]⟩

/-- Characters surviving the trailing-newline strip come from the input. -/
theorem stripTrailingNl_subset (l : List Char) :
    ∀ c ∈ stripTrailingNl l, c ∈ l := by
  intro c hc
  unfold stripTrailingNl at hc
  split at hc
  · next rest heq =>
    have h1 : c ∈ rest := List.mem_reverse.mp hc
    have h2 : c ∈ l.reverse := by rw [heq]; exact List.mem_cons_of_mem _ h1
    exact List.mem_reverse.mp h2
  · exact hc

/-- The operator/version regex finds no match on a whitespace-only token. -/
theorem reMatchOp_all_space (sub : List Char) (h : sub.all isPySpace = true) :
    reMatchOp sub = .error .indexError := by
  rw [reMatchOp]
  have hcond : ((stripTrailingNl sub).isEmpty || (stripTrailingNl sub).any isPySpace) = true := by
    cases hst : stripTrailingNl sub with
    | nil => rfl
    | cons c cs =>
      have hmem : c ∈ stripTrailingNl sub := by rw [hst]; exact List.mem_cons_self _ _
      have hcs : isPySpace c = true :=
        List.all_eq_true.mp h c (stripTrailingNl_subset sub c hmem)
      simp [hcs]
  simp [hcond]

/-- Parsing a whitespace-only subclause raises `IndexError`. -/
theorem parseSub_all_space (sub : List Char) (h : sub.all isPySpace = true) :
    parseSub sub = .error .indexError := by
  rw [parseSub, reMatchOp_all_space sub h, except_bind_error]

/-- The spec loop raises when it reaches a spec that raises, provided no
earlier spec evaluates to `True`. -/
theorem checkLoop_error_of_reached (pv : List Nat) :
    ∀ (L1 : List String) (s : String) (L2 : List String) (e : PyErr),
    (∀ t ∈ L1, evalSpecFull pv t ≠ .ok true) →
    evalSpecFull pv s = .error e →
    ∃ e', checkLoop pv (L1 ++ s :: L2) = .error e' := by
  intro L1
  induction L1 with
  | nil =>
    intro s L2 e _ hs
    exact ⟨e, by rw [List.nil_append, checkLoop, hs, except_bind_error]⟩
  | cons t ts ih =>
    intro s L2 e hnone hs
    rw [List.cons_append, checkLoop]
    cases ht : evalSpecFull pv t with
    | error e2 =>
      exact ⟨e2, by rw [except_bind_error]⟩
    | ok b =>
      cases b with
      | true => exact absurd ht (hnone t (List.mem_cons_self _ _))
      | false =>
        show ∃ e', checkLoop pv (ts ++ s :: L2) = .error e'
        exact ih s L2 e (fun u hu => hnone u (List.mem_cons_of_mem _ hu)) hs

/-- A successful `mapM` over an append splits at the append, and every
output of the prefix is the image of some input of the prefix. -/
theorem mapM_append_ok {α β : Type} (f : α → Except PyErr β) :
    ∀ (l1 l2 : List α) (r : List β), (l1 ++ l2).mapM f = .ok r →
    ∃ r1 r2, r = r1 ++ r2 ∧ l1.mapM f = .ok r1 ∧ l2.mapM f = .ok r2 ∧
      ∀ b ∈ r1, ∃ a ∈ l1, f a = .ok b := by
  intro l1
  induction l1 with
  | nil =>
    intro l2 r h
    exact ⟨[], r, rfl, rfl, h, fun b hb => absurd hb (List.not_mem_nil b)⟩
  | cons a as ih =>
    intro l2 r h
    rw [List.cons_append, List.mapM_cons] at h
    cases hf : f a with
    | error e => rw [hf, except_bind_error] at h; cases h
    | ok b =>
      rw [hf, except_bind_ok] at h
      cases hrest : (as ++ l2).mapM f with
      | error e => rw [hrest, except_bind_error] at h; cases h
      | ok r' =>
        rw [hrest, except_bind_ok] at h
        injection h with h
        subst h
        obtain ⟨r1, r2, hsplit, h1, h2, horig⟩ := ih l2 r' hrest
        refine ⟨b :: r1, r2, by rw [hsplit, List.cons_append], ?_, h2, ?_⟩
        · rw [List.mapM_cons, hf, except_bind_ok, h1, except_bind_ok]
          rfl
        · intro x hx
          rcases List.mem_cons.mp hx with rfl | hx'
          · exact ⟨a, List.mem_cons_self _ _, hf⟩
          · obtain ⟨a2, ha2, hfa2⟩ := horig x hx'
            exact ⟨a2, List.mem_cons_of_mem _ ha2, hfa2⟩

/-- C10 (amended): `check_version` is indeed not total, but the exception
only surfaces when the malformed spec is reached: whenever a spec that is
not a trailing-wildcard constraint has a comma/pipe token with no
non-whitespace character, and no spec before it in the list is satisfied
(each earlier spec's expansion evaluates to `False`, or itself raises),
evaluation raises instead of returning a boolean — as with `[""]`,
`[">=3.4.3,"]` or `["<0", ""]`. -/
theorem check_version_raises_on_bad_spec :
    ∀ (v : String) (pre : List String) (spec : String) (rest : List String),
    (∃ ap ∈ splitOnCharFn ',' spec.data, ∃ sub ∈ splitOnCharFn '|' ap,
      sub.all isPySpace = true) →
    endsWithStar spec.data = false →
    (∀ s ∈ pre, ∀ s' : String, expand_one s = .ok s' →
      evalSpecFull (version_key v) s' ≠ .ok true) →
    ∃ e, check_version v (pre ++ spec :: rest) = .error e := by
  rintro v pre spec rest ⟨ap, hap, sub, hsub, hws⟩ hstar hpre
  have hspec_err : ∃ e, parseSpecRaw spec = .error e := by
    have hinner : ∃ e, (splitOnCharFn '|' ap).mapM parseSub = .error e :=
      mapM_error_of_mem parseSub _ sub hsub
        (fun r hr => by rw [parseSub_all_space sub hws] at hr; cases hr)
    obtain ⟨e, he⟩ := hinner
    exact mapM_error_of_mem _ _ ap hap
      (fun r hr => by rw [he] at hr; cases hr)
  obtain ⟨e0, he0⟩ := hspec_err
  have hfull : evalSpecFull (version_key v) spec = .error e0 := by
    rw [evalSpecFull, he0, except_bind_error]
  have hexp1 : expand_one spec = .ok spec := by
    rw [expand_one]
    simp [hstar]
  cases hall : (pre ++ spec :: rest).mapM expand_one with
  | error e =>
    refine ⟨e, ?_⟩
    rw [check_version]
    have hew : expand_wildcards (pre ++ spec :: rest) = .error e := hall
    rw [hew, except_bind_error]
  | ok L =>
    obtain ⟨r1, r2, hsplit, h1, h2, horig⟩ :=
      mapM_append_ok expand_one pre (spec :: rest) L hall
    rw [List.mapM_cons, hexp1, except_bind_ok] at h2
    cases hrest2 : rest.mapM expand_one with
    | error e => rw [hrest2, except_bind_error] at h2; cases h2
    | ok rl =>
      rw [hrest2, except_bind_ok] at h2
      injection h2 with h2
      subst h2
      have hnone : ∀ t ∈ r1, evalSpecFull (version_key v) t ≠ .ok true := by
        intro t ht
        obtain ⟨s, hs, hfs⟩ := horig t ht
        exact hpre s hs t hfs
      obtain ⟨e1, he1⟩ :=
        checkLoop_error_of_reached (version_key v) r1 spec rl e0 hnone hfull
      refine ⟨e1, ?_⟩
      rw [check_version]
      have hew : expand_wildcards (pre ++ spec :: rest) = .ok (r1 ++ spec :: rl) := by
        rw [expand_wildcards, hall, hsplit]
      rw [hew, except_bind_ok]
      exact he1

/-- C10 witness: the amended claim applied to the claim's own example
`">=3.4.3,"` placed first in the spec list, and to the malformed empty
spec at a later position, reached after the unsatisfied spec `"<0"`. -/
theorem check_version_raises_on_bad_spec_witness :
    (∃ e, check_version "3.5.0" [">=3.4.3,"] = .error e) ∧
    (∃ e, check_version "1.0" ["<0", ""] = .error e) :=
  ⟨check_version_raises_on_bad_spec "3.5.0" [] ">=3.4.3," [] (by decide) (by decide)
      (fun s hs => absurd hs (List.not_mem_nil s)),
   check_version_raises_on_bad_spec "1.0" ["<0"] "" [] (by decide) (by decide)
      (by
        intro s hs s' hexp
        have hs0 : s = "<0" := by
          rcases List.mem_cons.mp hs with h | h
          · exact h
          · cases h
        subst hs0
        have hexp' : (Except.ok "<0" : Except PyErr String) = .ok s' := hexp
        injection hexp' with hexp'
        subst hexp'
        intro hbad
        have hb : (Except.ok false : Except PyErr Bool) = .ok true := hbad
        injection hb with hb
        cases hb)⟩

/-- The string comparison is irreflexive. -/
theorem charsLt_irrefl : ∀ l : List Char, charsLt l l = false := by
  intro l
  induction l with
  | nil => rfl
  | cons c cs ih => simp [charsLt, ih]

/-- The string comparison is asymmetric. -/
theorem charsLt_asymm : ∀ a b : List Char, charsLt a b = true → charsLt b a = false := by
  intro a
  induction a with
  | nil =>
    intro b h
    cases b with
    | nil => simp [charsLt] at h
    | cons d bs => rfl
  | cons c as ih =>
    intro b h
    cases b with
    | nil => simp [charsLt] at h
    | cons d bs =>
      simp [charsLt] at h ⊢
      rcases h with h | ⟨heq, h⟩
      · exact ⟨by omega, fun h2 => by omega⟩
      · exact ⟨by omega, fun _ => ih bs h⟩

/-- The string comparison is transitive. -/
theorem charsLt_trans : ∀ a b c : List Char,
    charsLt a b = true → charsLt b c = true → charsLt a c = true := by
  intro a
  induction a with
  | nil =>
    intro b c hab hbc
    cases b with
    | nil => simp [charsLt] at hab
    | cons y bs =>
      cases c with
      | nil => simp [charsLt] at hbc
      | cons z cs => rfl
  | cons x as ih =>
    intro b c hab hbc
    cases b with
    | nil => simp [charsLt] at hab
    | cons y bs =>
      cases c with
      | nil => simp [charsLt] at hbc
      | cons z cs =>
        simp [charsLt] at hab hbc ⊢
        rcases hab with h1 | ⟨e1, h1⟩ <;> rcases hbc with h2 | ⟨e2, h2⟩
        · left; omega
        · left; omega
        · left; omega
        · right; exact ⟨by omega, ih bs cs h1 h2⟩

/-- The string comparison is connected: distinct lists compare. -/
theorem charsLt_connected : ∀ a b : List Char, a ≠ b →
    charsLt a b = true ∨ charsLt b a = true := by
  intro a
  induction a with
  | nil =>
    intro b hb
    cases b with
    | nil => exact absurd rfl hb
    | cons d bs => left; rfl
  | cons x as ih =>
    intro b hb
    cases b with
    | nil => right; rfl
    | cons y bs =>
      by_cases hxy : x.toNat = y.toNat
      · have hx : x = y := by
          have := congrArg Char.ofNat hxy
          rwa [Char.ofNat_toNat, Char.ofNat_toNat] at this
        subst hx
        have hab : as ≠ bs := by intro h; exact hb (by rw [h])
        rcases ih bs hab with h | h
        · left; simp [charsLt, h]
        · right; simp [charsLt, h]
      · rcases Nat.lt_or_ge x.toNat y.toNat with h | h
        · left; simp [charsLt, h]
        · have hlt : y.toNat < x.toNat := by omega
          right; simp [charsLt, hlt]

/-- Totality of the Python string order. -/
theorem strLe_total : ∀ a b : String, strLe a b ∨ strLe b a := by
  intro a b
  simp only [strLe, pyStrLeB, Bool.not_eq_true']
  cases h : charsLt b.data a.data with
  | false => left; rfl
  | true => right; exact charsLt_asymm _ _ h

/-- Transitivity of the Python string order. -/
theorem strLe_trans : ∀ a b c : String, strLe a b → strLe b c → strLe a c := by
  intro a b c
  simp only [strLe, pyStrLeB, Bool.not_eq_true']
  intro h1 h2
  cases h : charsLt c.data a.data with
  | false => rfl
  | true =>
    exfalso
    by_cases hab : a.data = b.data
    · rw [hab] at h
      rw [h] at h2
      cases h2
    · rcases charsLt_connected a.data b.data hab with hl | hl
      · have := charsLt_trans _ _ _ h hl
        rw [this] at h2
        cases h2
      · rw [hl] at h1
        cases h1

/-- Antisymmetry of the Python string order. -/
theorem strLe_antisymm : ∀ a b : String, strLe a b → strLe b a → a = b := by
  intro a b h1 h2
  simp only [strLe, pyStrLeB, Bool.not_eq_true'] at h1 h2
  by_contra hne
  have hd : a.data ≠ b.data := by
    intro h
    apply hne
    cases a
    cases b
    exact congrArg String.mk h
  rcases charsLt_connected a.data b.data hd with h | h
  · rw [h] at h2; cases h2
  · rw [h] at h1; cases h1

/-- Sorting with the Python string order maps permutations to equal lists. -/
theorem insertionSort_eq_of_perm (a b : List String) (hab : a.Perm b) :
    List.insertionSort strLe a = List.insertionSort strLe b := by
  haveI : IsTotal String strLe := ⟨strLe_total⟩
  haveI : IsTrans String strLe := ⟨strLe_trans⟩
  haveI : IsAntisymm String strLe := ⟨strLe_antisymm⟩
  exact List.eq_of_perm_of_sorted
    ((List.perm_insertionSort _ a).trans (hab.trans (List.perm_insertionSort _ b).symm))
    (List.sorted_insertionSort _ a)
    (List.sorted_insertionSort _ b)

/-- A completed removal loop keeps exactly the versions passing their check. -/
theorem filterCands_ok_split (specs : List String) : ∀ (l r : List String),
    filterCands specs l = .ok r →
    (∀ v ∈ l, ∃ b, check_version v specs = .ok b) ∧ r = l.filter (checkTrue specs) := by
  intro l
  induction l with
  | nil =>
    intro r h
    rw [filterCands] at h
    injection h with h
    subst h
    exact ⟨fun v hv => absurd hv (List.not_mem_nil v), rfl⟩
  | cons a vs ih =>
    intro r h
    rw [filterCands] at h
    cases hc : check_version a specs with
    | error e => rw [hc, except_bind_error] at h; cases h
    | ok b =>
      rw [hc, except_bind_ok] at h
      cases hrest : filterCands specs vs with
      | error e => rw [hrest, except_bind_error] at h; cases h
      | ok r' =>
        rw [hrest, except_bind_ok] at h
        injection h with h
        subst h
        obtain ⟨hall, hr'⟩ := ih r' hrest
        refine ⟨?_, ?_⟩
        · intro v hv
          rcases List.mem_cons.mp hv with rfl | hv'
          · exact ⟨b, hc⟩
          · exact hall v hv'
        · have hct : checkTrue specs a = b := by rw [checkTrue, hc]
          rw [List.filter_cons, hct, hr']

/-- The companion filtering chain sends permuted candidate sets to permuted
results, whatever set-iteration orders the two runs see. -/
theorem companionLoop_perm (q : Query) (platform r_base : String)
    (s1 s2 : List String → List String)
    (hs1 : ∀ l, (s1 l).Perm l) (hs2 : ∀ l, (s2 l).Perm l) :
    ∀ (pkgs : List String) (c1 c2 r1 r2 : List String), c1.Perm c2 →
    companionLoop s1 q platform r_base pkgs c1 = .ok r1 →
    companionLoop s2 q platform r_base pkgs c2 = .ok r2 →
    r1.Perm r2 := by
  intro pkgs
  induction pkgs with
  | nil =>
    intro c1 c2 r1 r2 hperm h1 h2
    rw [companionLoop] at h1 h2
    injection h1 with h1
    injection h2 with h2
    subst h1
    subst h2
    exact hperm
  | cons pkg rest ih =>
    intro c1 c2 r1 r2 hperm h1 h2
    rw [companionLoop] at h1 h2
    cases hq : conda_search q platform pkg with
    | error e => rw [hq, except_bind_error] at h1; cases h1
    | ok out =>
      rw [hq, except_bind_ok] at h1 h2
      cases hf1 : filterCands (pkgVers r_base out) (s1 c1) with
      | error e => rw [hf1, except_bind_error] at h1; cases h1
      | ok m1 =>
        cases hf2 : filterCands (pkgVers r_base out) (s2 c2) with
        | error e => rw [hf2, except_bind_error] at h2; cases h2
        | ok m2 =>
          rw [hf1, except_bind_ok] at h1
          rw [hf2, except_bind_ok] at h2
          obtain ⟨_, hm1⟩ := filterCands_ok_split _ _ _ hf1
          obtain ⟨_, hm2⟩ := filterCands_ok_split _ _ _ hf2
          have hperm' : m1.Perm m2 := by
            rw [hm1, hm2]
            exact ((hs1 c1).trans (hperm.trans (hs2 c2).symm)).filter _
          exact ih m1 m2 r1 r2 hperm' h1 h2

/-- C9: `resolve` is deterministic in the index state: whatever iteration
orders the backing unordered set exposes in the two runs, two completed
resolves against the same index, platform and base package return the same
sorted version list. -/
theorem resolve_deterministic :
    ∀ (s1 s2 : List String → List String),
    (∀ l, (s1 l).Perm l) → (∀ l, (s2 l).Perm l) →
    ∀ (q : Query) (platform r_base : String) (l1 l2 : List String),
    get_supported_versions s1 q platform r_base = .ok l1 →
    get_supported_versions s2 q platform r_base = .ok l2 →
    l1 = l2 := by
  intro s1 s2 hs1 hs2 q platform r_base l1 l2 h1 h2
  rw [get_supported_versions] at h1 h2
  cases hq : conda_search q platform ("r::" ++ r_base ++ "-base") with
  | error e => rw [hq, except_bind_error] at h1; cases h1
  | ok out =>
    rw [hq, except_bind_ok] at h1 h2
    by_cases hie : out.isEmpty = true
    · rw [if_pos hie] at h1 h2
      injection h1 with h1
      injection h2 with h2
      subst h1
      subst h2
      rfl
    · rw [if_neg hie] at h1 h2
      cases hb : buildCands out with
      | error e => rw [hb, except_bind_error] at h1; cases h1
      | ok c0 =>
        rw [hb, except_bind_ok] at h1 h2
        cases hc1 : companionLoop s1 q platform r_base companions c0 with
        | error e => rw [hc1, except_bind_error] at h1; cases h1
        | ok m1 =>
          cases hc2 : companionLoop s2 q platform r_base companions c0 with
          | error e => rw [hc2, except_bind_error] at h2; cases h2
          | ok m2 =>
            rw [hc1, except_bind_ok] at h1
            rw [hc2, except_bind_ok] at h2
            injection h1 with h1
            injection h2 with h2
            subst h1
            subst h2
            have hperm : m1.Perm m2 :=
              companionLoop_perm q platform r_base s1 s2 hs1 hs2 companions c0 c0 m1 m2
                (List.Perm.refl c0) hc1 hc2
            exact insertionSort_eq_of_perm _ _
              ((hs1 m1).trans (hperm.trans (hs2 m2).symm))

/-- C9 witness: the determinism theorem applied to the identity iteration
order on both sides over a concrete index. -/
theorem resolve_deterministic_witness : ["3.4.3", "3.5.0"] = ["3.4.3", "3.5.0"] :=
  resolve_deterministic id id (fun l => List.Perm.refl l) (fun l => List.Perm.refl l)
    qGood "linux-64" "r" ["3.4.3", "3.5.0"] ["3.4.3", "3.5.0"] rfl rfl

/-- The only exception `conda_search` itself propagates is the re-raised
`CalledProcessError`. -/
theorem conda_search_error_kind (q : Query) (platform pkg : String) (e : PyErr)
    (h : conda_search q platform pkg = .error e) : e = .calledProcessError := by
  rw [conda_search] at h
  split at h
  · cases h
  · split at h
    · cases h
    · injection h with h
      exact h.symm

/-- Building the candidate set succeeds when every floor key parses. -/
theorem buildCandsGo_ok : ∀ (items : List PkgRecord) (acc : List String),
    (∀ it ∈ items, ∃ k, floorKey it.version = .ok k) →
    ∃ c, buildCandsGo items acc = .ok c := by
  intro items
  induction items with
  | nil => intro acc _; exact ⟨acc, rfl⟩
  | cons it rest ih =>
    intro acc hall
    obtain ⟨k, hk⟩ := hall it (List.mem_cons_self _ _)
    rw [buildCandsGo, hk, except_bind_ok]
    have hrest := fun x hx => hall x (List.mem_cons_of_mem _ hx)
    by_cases hlt : tupLt k [(3 : Int), 4, 3] = true
    · rw [if_pos hlt]; exact ih acc hrest
    · rw [if_neg hlt]; exact ih _ hrest

/-- The removal loop succeeds when every check succeeds. -/
theorem filterCands_ok_of_all (specs : List String) : ∀ (l : List String),
    (∀ v ∈ l, ∃ b, check_version v specs = .ok b) →
    ∃ r, filterCands specs l = .ok r := by
  intro l
  induction l with
  | nil => exact fun _ => ⟨[], rfl⟩
  | cons a vs ih =>
    intro hall
    obtain ⟨b, hb⟩ := hall a (List.mem_cons_self _ _)
    obtain ⟨r, hr⟩ := ih (fun v hv => hall v (List.mem_cons_of_mem _ hv))
    exact ⟨if b then a :: r else r,
      by rw [filterCands, hb, except_bind_ok, hr, except_bind_ok]⟩

/-- The companion chain either completes or propagates a fatal query error. -/
theorem companionLoop_ok_or_fatal (shuffle : List String → List String)
    (q : Query) (platform r_base : String) :
    ∀ (pkgs : List String),
    (∀ pkg ∈ pkgs, ∀ recs, conda_search q platform pkg = .ok recs →
      ∀ v, ∃ b, check_version v (pkgVers r_base recs) = .ok b) →
    ∀ cands, (∃ r, companionLoop shuffle q platform r_base pkgs cands = .ok r) ∨
      companionLoop shuffle q platform r_base pkgs cands = .error .calledProcessError := by
  intro pkgs
  induction pkgs with
  | nil => intro _ cands; exact Or.inl ⟨cands, rfl⟩
  | cons pkg rest ih =>
    intro hall cands
    rw [companionLoop]
    cases hq : conda_search q platform pkg with
    | error e =>
      have he := conda_search_error_kind q platform pkg e hq
      subst he
      right
      rw [except_bind_error]
    | ok out =>
      rw [except_bind_ok]
      obtain ⟨r, hr⟩ := filterCands_ok_of_all _ (shuffle cands)
        (fun v _ => hall pkg (List.mem_cons_self _ _) out hq v)
      rw [hr, except_bind_ok]
      exact ih (fun p hp => hall p (List.mem_cons_of_mem _ hp)) r

/-- C4 (amended): `version_key` is total, but `resolve` is not parse-safe
for arbitrary index content — the floor comparison and wildcard expansion
use raw `int()` parses that can raise `ValueError`.  Whenever every base
version floor-parses and every companion constraint check completes,
`resolve` raises no parse error: it either returns a list or propagates a
fatal query error. -/
theorem resolve_no_parse_failure_cond :
    ∀ (shuffle : List String → List String) (q : Query) (platform r_base : String),
    (∀ recs, conda_search q platform ("r::" ++ r_base ++ "-base") = .ok recs →
      ∀ it ∈ recs, ∃ k, floorKey it.version = .ok k) →
    (∀ pkg ∈ companions, ∀ recs, conda_search q platform pkg = .ok recs →
      ∀ v, ∃ b, check_version v (pkgVers r_base recs) = .ok b) →
    (∃ l, get_supported_versions shuffle q platform r_base = .ok l) ∨
      get_supported_versions shuffle q platform r_base = .error .calledProcessError := by
  intro shuffle q platform r_base hfloor hcomp
  rw [get_supported_versions]
  cases hq : conda_search q platform ("r::" ++ r_base ++ "-base") with
  | error e =>
    have he := conda_search_error_kind _ _ _ e hq
    subst he
    right
    rw [except_bind_error]
  | ok out =>
    rw [except_bind_ok]
    by_cases hie : out.isEmpty = true
    · rw [if_pos hie]; exact Or.inl ⟨[], rfl⟩
    · rw [if_neg hie]
      obtain ⟨c0, hc0⟩ := buildCandsGo_ok out [] (hfloor out hq)
      rw [show buildCands out = buildCandsGo out [] from rfl, hc0, except_bind_ok]
      rcases companionLoop_ok_or_fatal shuffle q platform r_base companions hcomp c0
        with ⟨r, hr⟩ | hr
      · rw [hr, except_bind_ok]; exact Or.inl ⟨_, rfl⟩
      · rw [hr, except_bind_error]; exact Or.inr rfl

/-- C4 witness: the amended claim applied to a concrete index satisfying
both parse-safety hypotheses. -/
theorem resolve_no_parse_failure_cond_witness :
    (∃ l, get_supported_versions id qEmpty "linux-64" "r" = .ok l) ∨
      get_supported_versions id qEmpty "linux-64" "r" = .error .calledProcessError :=
  resolve_no_parse_failure_cond id qEmpty "linux-64" "r"
    (fun recs h => by
      have h' : (Except.ok ([] : List PkgRecord) : Except PyErr (List PkgRecord)) =
          .ok recs := h
      injection h' with h'
      subst h'
      intro it hit
      cases hit)
    (fun pkg _ recs h => by
      have h' : (Except.ok ([] : List PkgRecord) : Except PyErr (List PkgRecord)) =
          .ok recs := h
      injection h' with h'
      subst h'
      intro v
      exact ⟨false, rfl⟩)

/-- C8: `conda_search` raises exactly when the underlying query fails with
an error body that is empty or whose `exception_name` is not
`PackagesNotFoundError`; a not-found error body yields zero results, and a
not-found base query makes `resolve` return the empty set. -/
theorem search_not_found_vs_fatal :
    (∀ (q : Query) (platform pkg : String),
      ((∃ body, q platform pkg = .err body ∧
          (body = [] ∨ (body.lookup "exception_name").getD "" ≠ "PackagesNotFoundError")) ↔
        conda_search q platform pkg = .error .calledProcessError)) ∧
    (∀ (q : Query) (platform pkg : String) (body : List (String × String)),
      q platform pkg = .err body → body ≠ [] →
      (body.lookup "exception_name").getD "" = "PackagesNotFoundError" →
      conda_search q platform pkg = .ok []) ∧
    (∀ (q : Query) (shuffle : List String → List String) (platform r_base : String)
        (body : List (String × String)),
      q platform ("r::" ++ r_base ++ "-base") = .err body → body ≠ [] →
      (body.lookup "exception_name").getD "" = "PackagesNotFoundError" →
      get_supported_versions shuffle q platform r_base = .ok []) := by
  have hok : ∀ (q : Query) (platform pkg : String) (body : List (String × String)),
      q platform pkg = .err body → body ≠ [] →
      (body.lookup "exception_name").getD "" = "PackagesNotFoundError" →
      conda_search q platform pkg = .ok [] := by
    intro q platform pkg body hq hne hpnf
    rw [conda_search, hq]
    exact if_pos ⟨hne, hpnf⟩
  refine ⟨?_, hok, ?_⟩
  · intro q platform pkg
    constructor
    · rintro ⟨body, hq, hbad⟩
      have hneg : ¬(body ≠ [] ∧
          (body.lookup "exception_name").getD "" = "PackagesNotFoundError") := by
        rintro ⟨h1, h2⟩
        rcases hbad with h | h
        · exact h1 h
        · exact h h2
      rw [conda_search, hq]
      exact if_neg hneg
    · intro h
      cases hq : q platform pkg with
      | ok out => rw [conda_search, hq] at h; cases h
      | err body =>
        refine ⟨body, rfl, ?_⟩
        by_cases hb : body = []
        · exact Or.inl hb
        · right
          intro hpnf
          rw [hok q platform pkg body hq hb hpnf] at h
          cases h
  · intro q shuffle platform r_base body hq hne hpnf
    rw [get_supported_versions, hok q platform _ body hq hne hpnf, except_bind_ok]
    rfl

/-- C8 witness: the error-handling theorem applied to a concrete not-found
body and a concrete fatal body. -/
theorem search_not_found_vs_fatal_witness :
    conda_search qNotFound "linux-64" "r::r-base" = .ok [] ∧
    get_supported_versions id qNotFound "linux-64" "r" = .ok [] ∧
    conda_search qFatal "linux-64" "r::r-base" = .error .calledProcessError :=
  ⟨search_not_found_vs_fatal.2.1 qNotFound "linux-64" "r::r-base"
      [("exception_name", "PackagesNotFoundError")] rfl (by decide) rfl,
   search_not_found_vs_fatal.2.2 qNotFound id "linux-64" "r"
      [("exception_name", "PackagesNotFoundError")] rfl (by decide) rfl,
   (search_not_found_vs_fatal.1 qFatal "linux-64" "r::r-base").mp
      ⟨[("exception_name", "CondaHTTPError")], rfl, Or.inr (by decide)⟩⟩

/-- The skip loop stops at the first non-space line, discarding the
space-indented run and returning the breaking line and the remainder. -/
theorem skipCont_all_space : ∀ (cont : List String),
    (∀ l ∈ cont, pyStartsWith " " l = true) →
    ∀ (brk : String), pyStartsWith " " brk = false →
    ∀ (rest : List String) (cur : String),
    skipCont cur (cont ++ brk :: rest) = (brk, rest) := by
  intro cont
  induction cont with
  | nil =>
    intro _ brk hbrk rest cur
    rw [List.nil_append, skipCont, if_neg (by simp [hbrk])]
  | cons c cs ih =>
    intro hcont brk hbrk rest cur
    rw [List.cons_append, skipCont, if_pos (hcont c (List.mem_cons_self _ _))]
    exact ih (fun l hl => hcont l (List.mem_cons_of_mem _ hl)) brk hbrk rest c

/-- Lines that do not start an `envlist` assignment are copied verbatim. -/
theorem copyLoopFuel_no_env (block : List String) : ∀ (rest : List String) (fuel : Nat),
    rest.length ≤ fuel → (∀ l ∈ rest, pyStartsWith "envlist" l = false) →
    copyLoopFuel block fuel rest = rest := by
  intro rest
  induction rest with
  | nil => intro fuel _ _; cases fuel <;> rfl
  | cons a rs ih =>
    intro fuel hf h
    cases fuel with
    | zero => simp at hf
    | succ f =>
      rw [copyLoopFuel, if_neg (by simp [h a (List.mem_cons_self _ _)])]
      rw [ih f (by simp at hf; omega) (fun l hl => h l (List.mem_cons_of_mem _ hl))]

/-- The copy loop with adequate fuel replaces exactly the `envlist` line
and its space-indented continuation run with the block. -/
theorem copyLoopFuel_replace (block : List String) :
    ∀ (pre : List String) (el : String) (cont : List String) (brk : String)
      (rest : List String) (fuel : Nat),
    (pre ++ el :: (cont ++ brk :: rest)).length ≤ fuel →
    (∀ l ∈ pre, pyStartsWith "envlist" l = false) →
    pyStartsWith "envlist" el = true →
    (∀ l ∈ cont, pyStartsWith " " l = true) →
    pyStartsWith " " brk = false →
    (∀ l ∈ rest, pyStartsWith "envlist" l = false) →
    copyLoopFuel block fuel (pre ++ el :: (cont ++ brk :: rest)) =
      pre ++ block ++ brk :: rest := by
  intro pre
  induction pre with
  | nil =>
    intro el cont brk rest fuel hf hpre hel hcont hbrk hrest
    cases fuel with
    | zero => simp at hf
    | succ f =>
      rw [List.nil_append, copyLoopFuel, if_pos hel,
          skipCont_all_space cont hcont brk hbrk rest el]
      show block ++ brk :: copyLoopFuel block f rest = block ++ brk :: rest
      rw [copyLoopFuel_no_env block rest f (by simp at hf; omega) hrest]
  | cons p ps ih =>
    intro el cont brk rest fuel hf hpre hel hcont hbrk hrest
    cases fuel with
    | zero => simp at hf
    | succ f =>
      rw [List.cons_append, copyLoopFuel,
          if_neg (by simp [hpre p (List.mem_cons_self _ _)])]
      rw [ih el cont brk rest f (by simp at hf ⊢; omega)
          (fun l hl => hpre l (List.mem_cons_of_mem _ hl)) hel hcont hbrk hrest]
      simp

/-- C5 (amended): the emitter replaces the line beginning with `envlist`
together with its continuation run — the immediately following lines that
start with a SPACE character (a tab-indented line is not treated as a
continuation) — by the freshly generated envlist block listing every
generated environment name plus the `empty` sentinel; provided the run is
terminated by a non-space line before the end of the template, every other
template line is copied verbatim and no continuation line survives into
the copied region. -/
theorem emitter_envlist_replacement :
    ∀ (names gen pre cont rest : List String) (el brk : String),
    (∀ l ∈ pre, pyStartsWith "envlist" l = false) →
    pyStartsWith "envlist" el = true →
    (∀ l ∈ cont, pyStartsWith " " l = true) →
    pyStartsWith " " brk = false →
    (∀ l ∈ rest, pyStartsWith "envlist" l = false) →
    writeToxOutput names gen (pre ++ el :: (cont ++ brk :: rest)) =
      (pre ++ envlistBlock names ++ brk :: rest) ++ gen.map (fun s => s ++ "\n") := by
  intro names gen pre cont rest el brk hpre hel hcont hbrk hrest
  rw [writeToxOutput, copyLoop,
      copyLoopFuel_replace (envlistBlock names) pre el cont brk rest _
        (Nat.le_refl _) hpre hel hcont hbrk hrest]

/-- C5 witness: the amended replacement theorem applied to a concrete
template whose continuation run is space-indented and terminated. -/
theorem emitter_envlist_replacement_witness :
    writeToxOutput ["n1"] ["g"] ["envlist = foo\n", "    a\n", "x\n"] =
      ["envlist =\n", "    n1\n", "    empty\n", "x\n", "g\n"] :=
  emitter_envlist_replacement ["n1"] ["g"] [] ["    a\n"] [] "envlist = foo\n" "x\n"
    (by decide) (by decide) (by decide) (by decide) (by decide)

end ToxGen

